import Mathlib

/-!
Verification of the Mandelbrot-set drawer (`src/main.rs`, `src/complex.rs`,
`src/bitmap.rs`).

The Rust code is shallowly embedded: pure functions become Lean functions,
integer casts (`as u32`, `as i64`) become explicit truncation (`% 2^32`) or
clamping on `Nat`/`Int`, and indexing that can panic becomes `Option`.
The floating-point types `f64`/`f32` of the source are embedded as `ℚ`;
every statement proved below concerns control flow, shape, or exact values
on which binary floating point is exact, never the rounding of inexact
floating-point operations.
-/

namespace Mandelbrot

/-! ### Definitions: `complex.rs` -/

/-- `Complex<N>` from `complex.rs`: a pair of components over a numeric
type `N`. -/
structure Complex (N : Type) where
  re : N
  im : N
  deriving DecidableEq, Repr

variable {N : Type}

/-- `impl Add<Complex<N>> for Complex<N>`: component-wise addition. -/
def Complex.add [Add N] (a b : Complex N) : Complex N :=
  ⟨a.re + b.re, a.im + b.im⟩

/-- `impl Mul<Complex<N>> for Complex<N>`: full complex multiplication. -/
def Complex.mul [Mul N] [Add N] [Sub N] (a b : Complex N) : Complex N :=
  ⟨a.re * b.re - a.im * b.im, a.re * b.im + a.im * b.re⟩

/-- `impl Mul<N> for Complex<N>`: scaling both components by a scalar. -/
def Complex.smul [Mul N] (a : Complex N) (s : N) : Complex N :=
  ⟨a.re * s, a.im * s⟩

/-- `Complex::module_sq`: `re*re + im*im`. -/
def Complex.module_sq [Mul N] [Add N] (a : Complex N) : N :=
  a.re * a.re + a.im * a.im

/-! ### Definitions: numeric casts and rounding -/

/-- The truncating integer cast `usize as u32` of the source
(`x as u32` keeps the low 32 bits). -/
def usizeToU32 (x : Nat) : Nat := x % 2 ^ 32

/-- `f64::round` / `f32::round`: rounding half away from zero, on `ℚ`. -/
def rustRound (q : ℚ) : ℤ := if 0 ≤ q then ⌊q + 1 / 2⌋ else ⌈q - 1 / 2⌉

/-- The saturating cast `float as u32` of the source, applied to an
integral value: negative values clamp to `0`, large values to `2^32 - 1`. -/
def intToU32sat (n : ℤ) : Nat := (min (max 0 n) (2 ^ 32 - 1)).toNat

/-- The saturating cast `float as i64` of the source, applied to an
integral value. -/
def intToI64sat (n : ℤ) : ℤ := min (max (-(2 ^ 63)) n) (2 ^ 63 - 1)

/-! ### Definitions: the escape-time evaluator (`main.rs`) -/

/-- The loop of `mandelbrot` in `main.rs`, with the remaining iteration
budget as fuel and the current value of `z` as accumulator:
`z = z*z + c; if z.module_sq() > bound { return false }`. -/
def mandelbrotGo (c : Complex ℚ) (bound : ℚ) : Nat → Complex ℚ → Bool
  | 0, _ => true
  | n + 1, z =>
    if ((z.mul z).add c).module_sq > bound then false
    else mandelbrotGo c bound n ((z.mul z).add c)

/-- `mandelbrot` from `main.rs` (the escape-time evaluator): start from
`z = 0+0i` and run the loop `max_iter` times.  The source computes over
`f64`; the embedding computes over `ℚ`. -/
def mandelbrot (c : Complex ℚ) (bound : ℚ) (max_iter : Nat) : Bool :=
  mandelbrotGo c bound max_iter ⟨0, 0⟩

/-- The mathematical orbit of the escape-time iteration: `mandelIter c k`
is the value of `z` after `k` updates `z ← z*z + c` starting from `0+0i`. -/
def mandelIter (c : Complex ℚ) : Nat → Complex ℚ
  | 0 => ⟨0, 0⟩
  | n + 1 => ((mandelIter c n).mul (mandelIter c n)).add c

/-! ### Definitions: the pixel grid (`bitmap.rs`) -/

/-- `Pixel` from `bitmap.rs`: three 8-bit colour channels.  The source stores
them as `u8`; the embedding uses `Nat` (all channel values produced by the
program are `< 256`). -/
structure Pixel where
  red : Nat
  green : Nat
  blue : Nat
  deriving DecidableEq, Repr

namespace Pixel

/-- `Pixel::new` from `bitmap.rs`. -/
def new (red green blue : Nat) : Pixel := ⟨red, green, blue⟩

/-- `Pixel::BLACK` -/
def BLACK : Pixel := new 0 0 0

/-- `Pixel::WHITE` -/
def WHITE : Pixel := new 255 255 255

/-- `Pixel::RED` -/
def RED : Pixel := new 255 0 0

/-- `Pixel::GREEN` -/
def GREEN : Pixel := new 0 255 0

/-- `Pixel::BLUE` -/
def BLUE : Pixel := new 0 0 255

end Pixel

/-- `BitMap` from `bitmap.rs`: `data` is the list of columns
(`data[x][y]` is the pixel at `(x, y)`); `width` and `height` are the `u32`
size fields, embedded as `Nat`. -/
structure BitMap where
  width : Nat
  height : Nat
  data : List (List Pixel)
  deriving DecidableEq, Repr

/-- `BitMap::new` from `bitmap.rs`: `w = data.len() as u32`; when `w == 0`
the result is a 0×0 bitmap keeping `data`; otherwise every column after the
first must have length `h as usize` where `h = data[0].len() as u32`, else
`Err("Not a rectangle")`. -/
def BitMap.new (data : List (List Pixel)) : Except String BitMap :=
  if usizeToU32 data.length = 0 then Except.ok ⟨0, 0, data⟩
  else if data.tail.all (fun col => col.length == usizeToU32 data.headI.length) then
    Except.ok ⟨usizeToU32 data.length, usizeToU32 data.headI.length, data⟩
  else Except.error "Not a rectangle"

/-- `BitMap::new_blank` from `bitmap.rs`: `vec![vec![color; height]; width]`,
a grid of `width` columns, each of `height` copies of `color`. -/
def BitMap.new_blank (color : Pixel) (width height : Nat) : BitMap :=
  ⟨width, height, List.replicate width (List.replicate height color)⟩

/-- The read `&self.data[x as usize][y as usize]` of `impl Index for BitMap`;
`none` models the out-of-bounds panic of `Vec` indexing. -/
def BitMap.getPixel? (b : BitMap) (x y : Nat) : Option Pixel :=
  b.data[x]?.bind fun col => col[y]?

/-- The assignment `self[(x, y)] = p` through `impl IndexMut for BitMap`;
`none` models the out-of-bounds panic of `Vec` indexing. -/
def BitMap.setPixel? (b : BitMap) (x y : Nat) (p : Pixel) : Option BitMap :=
  match b.data[x]? with
  | none => none
  | some col =>
    if y < col.length then some ⟨b.width, b.height, b.data.set x (col.set y p)⟩
    else none

/-- `BitMap::new_from_generator` from `bitmap.rs`: start from a white blank
bitmap and assign `gen x y` at every `(x, y)`, columns outer, rows inner. -/
def BitMap.new_from_generator (gen : Nat → Nat → Pixel) (width height : Nat) :
    Option BitMap :=
  (List.range width).foldlM
    (fun b x => (List.range height).foldlM (fun b2 y => b2.setPixel? x y (gen x y)) b)
    (BitMap.new_blank Pixel.WHITE width height)

/-- `BitMap::draw_line` from `bitmap.rs`.  The `f32` slope arithmetic of the
source is embedded as `ℚ` (exact for the values settled below), and the loop
`for x in s_x ..= f_x` is embedded as an offset `i` ranging over
`0 ..= f_x - s_x`; `.round() as u32` is `intToU32sat ∘ rustRound`. -/
def BitMap.draw_line (b : BitMap) (p q : Nat × Nat) (color : Pixel) : Option BitMap :=
  if ((p.1 : ℤ) - (q.1 : ℤ)).natAbs > ((p.2 : ℤ) - (q.2 : ℤ)).natAbs then
    let sx := if p.1 < q.1 then p.1 else q.1
    let sy := if p.1 < q.1 then p.2 else q.2
    let fx := if p.1 < q.1 then q.1 else p.1
    let fy := if p.1 < q.1 then q.2 else p.2
    let slope : ℚ := ((fy : ℚ) - (sy : ℚ)) / ((fx - sx : Nat) : ℚ)
    (List.range (fx - sx + 1)).foldlM
      (fun g (i : Nat) =>
        g.setPixel? (sx + i) (intToU32sat (rustRound ((i : ℚ) * slope + (sy : ℚ)))) color)
      b
  else
    let sx := if p.2 < q.2 then p.1 else q.1
    let sy := if p.2 < q.2 then p.2 else q.2
    let fx := if p.2 < q.2 then q.1 else p.1
    let fy := if p.2 < q.2 then q.2 else p.2
    let slope : ℚ :=
      if p.2 ≠ q.2 then ((fx : ℚ) - (sx : ℚ)) / ((fy - sy : Nat) : ℚ) else 0
    (List.range (fy - sy + 1)).foldlM
      (fun g (i : Nat) =>
        g.setPixel? (intToU32sat (rustRound ((i : ℚ) * slope + (sx : ℚ)))) (sy + i) color)
      b

/-- A single in-place mutation of a bitmap: an indexed pixel assignment or a
`draw_line` call. -/
inductive GridOp where
  | setOp (x y : Nat) (p : Pixel)
  | lineOp (p q : Nat × Nat) (color : Pixel)

/-- Interpretation of one `GridOp`. -/
def applyOp (b : BitMap) : GridOp → Option BitMap
  | GridOp.setOp x y p => b.setPixel? x y p
  | GridOp.lineOp p q color => b.draw_line p q color

/-- Interpretation of a sequence of mutations. -/
def applyOps (b : BitMap) (ops : List GridOp) : Option BitMap :=
  ops.foldlM applyOp b

/-- The documented shape invariant of `BitMap`: the backing store has exactly
`width` columns, each of exactly `height` rows. -/
def Rectangular (b : BitMap) : Prop :=
  b.data.length = b.width ∧ ∀ col ∈ b.data, col.length = b.height

instance : DecidablePred Rectangular := fun b => by
  unfold Rectangular
  infer_instance

/-! ### Definitions: the BMP encoder (`bitmap.rs`) -/

/-- `u16_to_u8` from `bitmap.rs`: a `u16` as two little-endian bytes. -/
def u16_to_u8 (x : Nat) : List Nat := [x % 256, x / 256 % 256]

/-- `u32_to_u8` from `bitmap.rs`: a `u32` as four little-endian bytes. -/
def u32_to_u8 (x : Nat) : List Nat :=
  [x % 256, x / 256 % 256, x / (256 * 256) % 256, x / (256 * 256 * 256) % 256]

/-- `offset_to` from `bitmap.rs`: bytes needed to pad `current` to a
multiple of `offset`. -/
def offset_to (current offset : Nat) : Nat :=
  if current % offset = 0 then 0 else offset - current % offset

/-- `BitMap::get_header` from `bitmap.rs`: `'B'`, `'M'`, file size,
reserved `0`, data offset `54`. -/
def get_header (size : Nat) : List Nat :=
  [66, 77] ++ u32_to_u8 size ++ u32_to_u8 0 ++ u32_to_u8 54

/-- `BitMap::get_info_header` from `bitmap.rs`. -/
def get_info_header (width height : Nat) : List Nat :=
  u32_to_u8 40 ++ u32_to_u8 width ++ u32_to_u8 height ++ u16_to_u8 1 ++ u16_to_u8 24
    ++ u32_to_u8 0 ++ u32_to_u8 0 ++ u32_to_u8 100 ++ u32_to_u8 100 ++ u32_to_u8 0
    ++ u32_to_u8 0

/-- The read `self.data[x][y]` inside `save_as_bmp`, made total with a
default; on a rectangular bitmap (the only kind the program builds) the
default is never reached. -/
def BitMap.pixelAt (b : BitMap) (x y : Nat) : Pixel :=
  (b.data.getD x []).getD y Pixel.BLACK

/-- The byte vector built by `BitMap::save_as_bmp` (`bitmap.rs`) before it is
written to disk: the two headers, then for `y` from `height - 1` down to `0`
the row's pixels pushed in blue, green, red order, followed by the row
padding.  The size passed to `get_header` is the `u32` computation
`14 + 40 + self.width * self.height * 3`, which wraps modulo `2^32`. -/
def BitMap.save_as_bmp_bytes (b : BitMap) : List Nat :=
  (List.range b.height).reverse.foldl
    (fun res y =>
      ((List.range b.width).foldl
        (fun res2 x =>
          res2 ++ [(b.pixelAt x y).blue, (b.pixelAt x y).green, (b.pixelAt x y).red])
        res)
      ++ List.replicate (offset_to (b.width * 3) 4) 0)
    (get_header ((14 + 40 + b.width * b.height * 3) % 2 ^ 32)
      ++ get_info_header b.width b.height)

/-- Declarative description of one encoded pixel row `y`: the row's pixels
left to right, each as the byte triple blue, green, red, then zero bytes
padding the row's byte length to a multiple of 4. -/
def rowBytes (b : BitMap) (y : Nat) : List Nat :=
  ((List.range b.width).map
    (fun x => [(b.pixelAt x y).blue, (b.pixelAt x y).green, (b.pixelAt x y).red])).flatten
    ++ List.replicate (offset_to (b.width * 3) 4) 0

/-- Declarative pixel-data section: the rows bottom to top (largest `y`
first). -/
def pixelBytes (b : BitMap) : List Nat :=
  ((List.range b.height).reverse.map (rowBytes b)).flatten

/-- The value of a little-endian byte sequence. -/
def leNum (bytes : List Nat) : Nat := bytes.foldr (fun d acc => d + 256 * acc) 0

/-! ### Definitions: coordinate mapping (`main.rs`) -/

/-- The per-pixel complex point of `create_generator` in `main.rs`:
`Complex::new(x as f64 - cent_x as f64, y as f64 - cent_y as f64) * pixel_size`. -/
def genPoint (cent : ℤ × ℤ) (pixel_size : ℚ) (x y : Nat) : Complex ℚ :=
  Complex.smul ⟨(x : ℚ) - (cent.1 : ℚ), (y : ℚ) - (cent.2 : ℚ)⟩ pixel_size

/-- `create_generator` from `main.rs`: classify the pixel's complex point
with `mandelbrot`; in-set maps to black, out-of-set to white. -/
def create_generator (cent : ℤ × ℤ) (pixel_size bound : ℚ) (max_iter : Nat) :
    Nat → Nat → Pixel :=
  fun x y =>
    if mandelbrot (genPoint cent pixel_size x y) bound max_iter then Pixel.BLACK
    else Pixel.WHITE

/-- The `center` computed by `get_bitmap_mandelbrot` in `main.rs`:
`((-x1 / pixel_size).round() as i64, (y2 / pixel_size).round() as i64)`. -/
def mandelCenter (x1 y2 pixel_size : ℚ) : ℤ × ℤ :=
  (intToI64sat (rustRound (-x1 / pixel_size)), intToI64sat (rustRound (y2 / pixel_size)))

/-- `get_bitmap_mandelbrot` from `main.rs`: width and height are the ceiled
quotients cast with `as u32`, and the bitmap is generator-filled. -/
def get_bitmap_mandelbrot (p1 p2 : ℚ × ℚ) (pixel_size bound : ℚ) (max_iter : Nat) :
    Option BitMap :=
  BitMap.new_from_generator
    (create_generator (mandelCenter p1.1 p2.2 pixel_size) pixel_size bound max_iter)
    (intToU32sat ⌈(p2.1 - p1.1) / pixel_size⌉)
    (intToU32sat ⌈(p2.2 - p1.2) / pixel_size⌉)

/-! ### Helper theorems -/

/-- The loop of `mandelbrot`, started at orbit position `k` with fuel `n`,
returns `true` exactly when no orbit point strictly past `k` and within the
fuel window exceeds the bound. -/
theorem mandelbrotGo_iff (c : Complex ℚ) (bound : ℚ) :
    ∀ (n k : Nat), mandelbrotGo c bound n (mandelIter c k) = true ↔
      ∀ j, k < j → j ≤ k + n → (mandelIter c j).module_sq ≤ bound
  | 0, k => by
    simp only [mandelbrotGo, true_iff]
    intro j h1 h2
    omega
  | n + 1, k => by
    have hstep : ((mandelIter c k).mul (mandelIter c k)).add c = mandelIter c (k + 1) := rfl
    simp only [mandelbrotGo, hstep]
    by_cases hesc : (mandelIter c (k + 1)).module_sq > bound
    · simp only [if_pos hesc, Bool.false_eq_true, false_iff]
      intro h
      exact absurd (h (k + 1) (by omega) (by omega)) (not_le.mpr hesc)
    · simp only [if_neg hesc]
      rw [mandelbrotGo_iff c bound n (k + 1)]
      constructor
      · intro h j h1 h2
        rcases Nat.eq_or_lt_of_le h1 with heq | hlt
        · exact heq ▸ not_lt.mp hesc
        · exact h j hlt (by omega)
      · intro h j h1 h2
        exact h j (by omega) (by omega)

/-- Setting an entry of a list to the value it already holds is the
identity. -/
theorem set_getElem?_eq_self {α : Type} {l : List α} {i : Nat} {a : α}
    (h : l[i]? = some a) : l.set i a = l := by
  induction l generalizing i with
  | nil => simp
  | cons x xs ih =>
    cases i with
    | zero =>
      simp only [List.getElem?_cons_zero, Option.some.injEq] at h
      simp [h]
    | succ n =>
      simp only [List.getElem?_cons_succ] at h
      simp [ih h]

/-- Running the inner row loop of `new_from_generator` (or the vertical case
of `draw_line`) over rows `0..n` of column `x` replaces the first `n` entries
of that column by the generated values. -/
theorem foldlM_setPixel_col (x : Nat) (f : Nat → Pixel) :
    ∀ (n : Nat) (b : BitMap) (col : List Pixel),
      b.data[x]? = some col → n ≤ col.length →
      (List.range n).foldlM (fun b2 y => b2.setPixel? x y (f y)) b
        = some ⟨b.width, b.height, b.data.set x ((List.range n).map f ++ col.drop n)⟩
  | 0, b, col, h, hn => by
    simp [set_getElem?_eq_self h]
  | n + 1, b, col, h, hn => by
    have hx : x < b.data.length := by
      rcases List.getElem?_eq_some_iff.mp h with ⟨hlt, -⟩
      exact hlt
    rw [List.range_succ, List.foldlM_append,
      foldlM_setPixel_col x f n b col h (by omega)]
    have hcol : (b.data.set x ((List.range n).map f ++ col.drop n))[x]?
        = some ((List.range n).map f ++ col.drop n) :=
      List.getElem?_set_self (by simpa using hx)
    have hlen : n < ((List.range n).map f ++ col.drop n).length := by
      simp only [List.length_append, List.length_map, List.length_range, List.length_drop]
      omega
    simp only [Option.bind_eq_bind, Option.some_bind, List.foldlM_cons, List.foldlM_nil,
      BitMap.setPixel?, hcol, if_pos hlen, Option.bind_some]
    rw [List.set_set]
    have hdrop : col.drop n = col[n] :: col.drop (n + 1) :=
      List.drop_eq_getElem_cons (by omega)
    rw [List.set_append_right _ _ (by simp)]
    simp only [List.length_map, List.length_range, Nat.sub_self]
    have hset0 : (col.drop n).set 0 (f n) = f n :: col.drop (n + 1) := by
      rw [hdrop, List.set_cons_zero]
    rw [hset0]
    simp [List.range_succ]

/-- Running the full column-then-row loop of `new_from_generator` produces
exactly the generated grid. -/
theorem new_from_generator_eq (gen : Nat → Nat → Pixel) (width height : Nat) :
    BitMap.new_from_generator gen width height
      = some ⟨width, height,
          (List.range width).map (fun x => (List.range height).map (gen x))⟩ := by
  have key : ∀ n, n ≤ width →
      (List.range n).foldlM
        (fun b x => (List.range height).foldlM (fun b2 y => b2.setPixel? x y (gen x y)) b)
        (BitMap.new_blank Pixel.WHITE width height)
      = some ⟨width, height,
          (List.range n).map (fun x => (List.range height).map (gen x))
            ++ List.replicate (width - n) (List.replicate height Pixel.WHITE)⟩ := by
    intro n
    induction n with
    | zero =>
      intro _
      simp [BitMap.new_blank]
    | succ n ih =>
      intro hn
      rw [List.range_succ, List.foldlM_append, ih (by omega)]
      have hget : ((List.range n).map (fun x => (List.range height).map (gen x))
            ++ List.replicate (width - n) (List.replicate height Pixel.WHITE))[n]?
          = some (List.replicate height Pixel.WHITE) := by
        rw [List.getElem?_append_right (by simp)]
        simp only [List.length_map, List.length_range, Nat.sub_self]
        exact List.getElem?_replicate_of_lt (by omega)
      rw [Option.bind_eq_bind, Option.some_bind, List.foldlM_cons]
      rw [foldlM_setPixel_col n (fun y => gen n y) height _ _ hget (by simp)]
      simp only [List.foldlM_nil, List.drop_replicate, Nat.sub_self, List.replicate_zero,
        List.append_nil, Option.some_bind]
      rw [List.set_append_right _ _ (by simp)]
      simp only [List.length_map, List.length_range, Nat.sub_self]
      have hrep : List.replicate (width - n) (List.replicate height Pixel.WHITE)
          = List.replicate height Pixel.WHITE
            :: List.replicate (width - (n + 1)) (List.replicate height Pixel.WHITE) := by
        rw [show width - n = (width - (n + 1)) + 1 by omega]
        rfl
      rw [hrep]
      simp [List.range_succ]
  have h := key width (Nat.le_refl width)
  simpa using h

/-! ### Claim theorems -/

/-- C1: the escape-time evaluator, given `c`, `bound_sq` and `max_iter`,
starts from `z = 0+0i` and repeats at most `max_iter` updates `z ← z*z + c`:
it returns `true` exactly when no update within the budget makes
`module_sq z` exceed `bound_sq` (so `false` as soon as some update does),
and in particular `max_iter = 0` always returns `true`. -/
theorem c1_escape_time_evaluator (c : Complex ℚ) (bound : ℚ) (max_iter : Nat) :
    (mandelbrot c bound max_iter = true ↔
      ∀ k, 1 ≤ k → k ≤ max_iter → (mandelIter c k).module_sq ≤ bound) ∧
    mandelbrot c bound 0 = true := by
  constructor
  · rw [show mandelbrot c bound max_iter
        = mandelbrotGo c bound max_iter (mandelIter c 0) from rfl,
      mandelbrotGo_iff]
    constructor
    · intro h k h1 h2
      exact h k h1 (by omega)
    · intro h j h1 h2
      exact h j h1 (by omega)
  · rfl

/-- C7: the origin `0+0i` is classified in-set for every positive squared
bound and every iteration budget. -/
theorem c7_origin_always_in_set (bound : ℚ) (k : Nat) (hb : 0 < bound) :
    mandelbrot ⟨0, 0⟩ bound k = true := by
  have hz : ∀ j, mandelIter ⟨0, 0⟩ j = ⟨0, 0⟩ := by
    intro j
    induction j with
    | zero => rfl
    | succ n ih => simp [mandelIter, ih, Complex.mul, Complex.add]
  rw [show mandelbrot ⟨0, 0⟩ bound k
      = mandelbrotGo ⟨0, 0⟩ bound k (mandelIter ⟨0, 0⟩ 0) from rfl,
    mandelbrotGo_iff]
  intro j h1 h2
  rw [hz j]
  simpa [Complex.module_sq] using le_of_lt hb

/-- Witness for C7 at `bound_sq = 4`, `k = 80`. -/
theorem c7_origin_always_in_set_witness : mandelbrot ⟨0, 0⟩ 4 80 = true :=
  c7_origin_always_in_set 4 80 (by norm_num)

/-- C10: the escape-time evaluator is monotone in the iteration budget:
shrinking the budget cannot turn an in-set answer into an escape. -/
theorem c10_budget_monotone (c : Complex ℚ) (bound : ℚ) (m' m : Nat)
    (hle : m' ≤ m) (h : mandelbrot c bound m = true) :
    mandelbrot c bound m' = true := by
  rw [show mandelbrot c bound m = mandelbrotGo c bound m (mandelIter c 0) from rfl,
    mandelbrotGo_iff] at h
  rw [show mandelbrot c bound m' = mandelbrotGo c bound m' (mandelIter c 0) from rfl,
    mandelbrotGo_iff]
  intro j h1 h2
  exact h j h1 (by omega)

/-- Witness for C10 at `c = -1`, `bound_sq = 4`, budgets `3 ≤ 6`. -/
theorem c10_budget_monotone_witness : mandelbrot ⟨-1, 0⟩ 4 3 = true :=
  c10_budget_monotone ⟨-1, 0⟩ 4 3 6 (by omega)
    (by norm_num [mandelbrot, mandelbrotGo, Complex.mul, Complex.add, Complex.module_sq])

/-- C6: grid construction errors exactly on a non-empty outer sequence with
some column length differing from the first column's; an empty outer
sequence gives a 0×0 grid; a rectangular non-empty sequence gives
width = number of columns and height = first column's length.  The two
side conditions reflect the `usize as u32` casts of the source. -/
theorem c6_grid_construction (data : List (List Pixel))
    (h1 : data.length < 2 ^ 32) (h2 : ∀ col ∈ data, col.length < 2 ^ 32) :
    (BitMap.new data = Except.error "Not a rectangle" ↔
      data ≠ [] ∧ ∃ col ∈ data.tail, col.length ≠ data.headI.length) ∧
    (BitMap.new ([] : List (List Pixel)) = Except.ok ⟨0, 0, []⟩) ∧
    (data ≠ [] → (∀ col ∈ data, col.length = data.headI.length) →
      BitMap.new data = Except.ok ⟨data.length, data.headI.length, data⟩) := by
  refine ⟨?_, rfl, ?_⟩
  · rcases data with _ | ⟨c0, rest⟩
    · simp [BitMap.new, usizeToU32]
    · have hw : usizeToU32 (c0 :: rest).length ≠ 0 := by
        rw [usizeToU32, Nat.mod_eq_of_lt h1]
        simp
      have hh : usizeToU32 (c0 :: rest).headI.length = c0.length := by
        rw [usizeToU32, List.headI_cons, Nat.mod_eq_of_lt (h2 c0 (by simp))]
      rw [BitMap.new, if_neg hw, hh]
      by_cases hall : rest.all (fun col => col.length == c0.length)
      · rw [if_pos (by simpa using hall)]
        simp only [List.all_eq_true, beq_iff_eq] at hall
        simp only [List.tail_cons, List.headI_cons]
        constructor
        · intro h
          exact absurd h (by simp)
        · rintro ⟨-, col, hmem, hne⟩
          exact absurd (hall col hmem) hne
      · rw [if_neg (by simpa using hall)]
        simp only [List.all_eq_true, beq_iff_eq, not_forall] at hall
        simp only [List.tail_cons, List.headI_cons, true_iff]
        obtain ⟨col, hmem, hne⟩ := hall
        exact ⟨by simp, col, hmem, hne⟩
  · intro hne hrect
    rcases data with _ | ⟨c0, rest⟩
    · exact absurd rfl hne
    · have hw : usizeToU32 (c0 :: rest).length ≠ 0 := by
        rw [usizeToU32, Nat.mod_eq_of_lt h1]
        simp
      have hh : usizeToU32 (c0 :: rest).headI.length = c0.length := by
        rw [usizeToU32, List.headI_cons, Nat.mod_eq_of_lt (h2 c0 (by simp))]
      rw [BitMap.new, if_neg hw, hh, if_pos ?_]
      · rw [usizeToU32, Nat.mod_eq_of_lt h1, List.headI_cons]
      · simp only [List.tail_cons, List.all_eq_true, beq_iff_eq]
        intro col hmem
        simpa using hrect col (by simp [hmem])

/-- Witness for C6: a jagged 2-column input is rejected. -/
theorem c6_grid_construction_witness :
    BitMap.new [[Pixel.RED], [Pixel.RED, Pixel.RED]] = Except.error "Not a rectangle" :=
  (c6_grid_construction [[Pixel.RED], [Pixel.RED, Pixel.RED]] (by norm_num)
      (by decide)).1.mpr
    ⟨by simp, [Pixel.RED, Pixel.RED], by simp, by simp⟩

/-- C2: under valid bounds and a positive pixel pitch, the rendered bitmap
exists, its width and height are the ceiled quotients cast to non-negative
integers, the centre is the rounded pair of `main.rs`, and each pixel is
black exactly when its complex point is classified in-set. -/
theorem c2_rendered_image (x1 y1 x2 y2 pixel_size bound : ℚ) (max_iter : Nat)
    (hx : x1 < x2) (hy : y1 < y2) (hps : 0 < pixel_size) :
    ∃ bm, get_bitmap_mandelbrot (x1, y1) (x2, y2) pixel_size bound max_iter = some bm ∧
      bm.width = intToU32sat ⌈(x2 - x1) / pixel_size⌉ ∧
      bm.height = intToU32sat ⌈(y2 - y1) / pixel_size⌉ ∧
      mandelCenter x1 y2 pixel_size
        = (intToI64sat (rustRound (-x1 / pixel_size)),
            intToI64sat (rustRound (y2 / pixel_size))) ∧
      ∀ x y, x < bm.width → y < bm.height →
        bm.getPixel? x y
          = some (if mandelbrot (genPoint (mandelCenter x1 y2 pixel_size) pixel_size x y)
                bound max_iter
              then Pixel.BLACK else Pixel.WHITE) := by
  rw [show get_bitmap_mandelbrot (x1, y1) (x2, y2) pixel_size bound max_iter
      = BitMap.new_from_generator
          (create_generator (mandelCenter x1 y2 pixel_size) pixel_size bound max_iter)
          (intToU32sat ⌈(x2 - x1) / pixel_size⌉)
          (intToU32sat ⌈(y2 - y1) / pixel_size⌉) from rfl]
  refine ⟨_, new_from_generator_eq _ _ _, rfl, rfl, rfl, ?_⟩
  intro x y hxw hyh
  unfold BitMap.getPixel?
  rw [List.getElem?_map, List.getElem?_range hxw]
  simp only [Option.map_some', Option.some_bind]
  rw [List.getElem?_map, List.getElem?_range hyh]
  simp only [Option.map_some']
  rfl

/-- Witness for C2 at bounds `(-1,-1)-(1,1)`, `pixel_size = 1`,
`bound_sq = 4`, `max_iter = 1`. -/
theorem c2_rendered_image_witness :
    ∃ bm, get_bitmap_mandelbrot (-1, -1) (1, 1) 1 4 1 = some bm ∧
      bm.width = intToU32sat ⌈((1 : ℚ) - -1) / 1⌉ ∧
      bm.height = intToU32sat ⌈((1 : ℚ) - -1) / 1⌉ ∧
      mandelCenter (-1) 1 1
        = (intToI64sat (rustRound (-(-1) / 1)), intToI64sat (rustRound (1 / 1))) ∧
      ∀ x y, x < bm.width → y < bm.height →
        bm.getPixel? x y
          = some (if mandelbrot (genPoint (mandelCenter (-1) 1 1) 1 x y) 4 1
              then Pixel.BLACK else Pixel.WHITE) :=
  c2_rendered_image (-1) (-1) 1 1 1 4 1 (by norm_num) (by norm_num) (by norm_num)

/-- An element of `l.set i a` is an element of `l` or is `a`. -/
theorem mem_set_cases {α : Type} {l : List α} {i : Nat} {a x : α}
    (h : x ∈ l.set i a) : x ∈ l ∨ x = a := by
  induction l generalizing i with
  | nil => simp at h
  | cons hd tl ih =>
    cases i with
    | zero =>
      rw [List.set_cons_zero] at h
      rcases List.mem_cons.mp h with h | h
      · exact Or.inr h
      · exact Or.inl (List.mem_cons_of_mem _ h)
    | succ n =>
      rw [List.set_cons_succ] at h
      rcases List.mem_cons.mp h with h | h
      · exact Or.inl (h ▸ List.mem_cons_self _ _)
      · rcases ih h with h | h
        · exact Or.inl (List.mem_cons_of_mem _ h)
        · exact Or.inr h

/-- A successful indexed pixel assignment preserves the shape invariant. -/
theorem rectangular_setPixel {b b' : BitMap} {x y : Nat} {p : Pixel}
    (hr : Rectangular b) (h : b.setPixel? x y p = some b') : Rectangular b' := by
  unfold BitMap.setPixel? at h
  split at h
  · simp at h
  · rename_i col hcol
    split at h
    · simp only [Option.some.injEq] at h
      subst h
      refine ⟨by simpa using hr.1, ?_⟩
      intro col' hmem
      rcases mem_set_cases hmem with hmem2 | rfl
      · exact hr.2 col' hmem2
      · simpa using hr.2 col (List.mem_iff_getElem?.mpr ⟨x, hcol⟩)
    · simp at h

/-- A successful `foldlM` of shape-preserving steps preserves the shape
invariant. -/
theorem rectangular_foldlM {α : Type} (step : BitMap → α → Option BitMap)
    (hstep : ∀ g a g', Rectangular g → step g a = some g' → Rectangular g') :
    ∀ (l : List α) (b b' : BitMap), Rectangular b →
      l.foldlM step b = some b' → Rectangular b'
  | [], b, b', hr, h => by
    simp only [List.foldlM_nil, Option.pure_def, Option.some.injEq] at h
    exact h ▸ hr
  | a :: l, b, b', hr, h => by
    rw [List.foldlM_cons] at h
    cases hsa : step b a with
    | none =>
      rw [hsa] at h
      simp at h
    | some g =>
      rw [hsa, Option.bind_eq_bind, Option.some_bind] at h
      exact rectangular_foldlM step hstep l g b' (hstep b a g hr hsa) h

/-- A successful `draw_line` preserves the shape invariant. -/
theorem rectangular_draw_line {b b' : BitMap} {p q : Nat × Nat} {color : Pixel}
    (hr : Rectangular b) (h : b.draw_line p q color = some b') : Rectangular b' := by
  rw [BitMap.draw_line] at h
  split at h
  · exact rectangular_foldlM _
      (fun g a g' hg hs => rectangular_setPixel hg hs) _ b b' hr h
  · exact rectangular_foldlM _
      (fun g a g' hg hs => rectangular_setPixel hg hs) _ b b' hr h

/-- C9: every bitmap the program can build is rectangular — after each of
the three constructors (with the `usize as u32` side conditions for
`BitMap::new`) and after any completed sequence of indexed pixel
assignments and `draw_line` calls. -/
theorem c9_rectangular_invariant :
    (∀ (data : List (List Pixel)) (bm : BitMap), data.length < 2 ^ 32 →
      (∀ col ∈ data, col.length < 2 ^ 32) →
      BitMap.new data = Except.ok bm → Rectangular bm) ∧
    (∀ (color : Pixel) (w h : Nat), Rectangular (BitMap.new_blank color w h)) ∧
    (∀ (gen : Nat → Nat → Pixel) (w h : Nat) (bm : BitMap),
      BitMap.new_from_generator gen w h = some bm → Rectangular bm) ∧
    (∀ (b : BitMap) (ops : List GridOp) (b' : BitMap), Rectangular b →
      applyOps b ops = some b' → Rectangular b') := by
  refine ⟨?_, ?_, ?_, ?_⟩
  · intro data bm h1 h2 hok
    rw [BitMap.new] at hok
    split at hok
    · rename_i hw
      rw [usizeToU32, Nat.mod_eq_of_lt h1] at hw
      simp only [Except.ok.injEq] at hok
      subst hok
      refine ⟨by simpa using hw, ?_⟩
      intro col hmem
      rw [List.length_eq_zero] at hw
      subst hw
      simp at hmem
    · split at hok
      · rename_i hw hall
        simp only [Except.ok.injEq] at hok
        subst hok
        refine ⟨by simp only [usizeToU32]; omega, ?_⟩
        intro col hmem
        rcases data with _ | ⟨c0, rest⟩
        · simp at hmem
        · simp only [List.tail_cons, List.all_eq_true, beq_iff_eq] at hall
          rcases List.mem_cons.mp hmem with rfl | hmem2
          · have hc := h2 col (by simp)
            simp only [usizeToU32, List.headI_cons]
            omega
          · exact hall col hmem2
      · simp at hok
  · intro color w h
    refine ⟨by simp [BitMap.new_blank], ?_⟩
    intro col hmem
    rw [BitMap.new_blank] at hmem
    simp only at hmem
    rcases List.mem_replicate.mp hmem with ⟨-, rfl⟩
    simp [BitMap.new_blank]
  · intro gen w h bm hsome
    rw [new_from_generator_eq] at hsome
    simp only [Option.some.injEq] at hsome
    subst hsome
    refine ⟨by simp, ?_⟩
    intro col hmem
    rcases List.mem_map.mp hmem with ⟨x, -, rfl⟩
    simp
  · intro b ops b' hr h
    refine rectangular_foldlM applyOp ?_ ops b b' hr h
    intro g a g' hg hs
    cases a with
    | setOp x y p => exact rectangular_setPixel hg hs
    | lineOp p q color => exact rectangular_draw_line hg hs

/-- Witness for C9: a pixel assignment on a 1×1 blank grid succeeds and
keeps the shape invariant. -/
theorem c9_rectangular_invariant_witness : Rectangular ⟨1, 1, [[Pixel.BLUE]]⟩ :=
  c9_rectangular_invariant.2.2.2 (BitMap.new_blank Pixel.RED 1 1)
    [GridOp.setOp 0 0 Pixel.BLUE] ⟨1, 1, [[Pixel.BLUE]]⟩ (by decide) (by decide)

/-- C8: drawing the line from `(0, 0)` to `(0, 5)` on a rectangular grid of
width ≥ 1 and height ≥ 6 succeeds, paints exactly the six pixels
`(0, 0) .. (0, 5)` with the colour, and leaves every other pixel (and the
size fields) unchanged. -/
theorem c8_vertical_line (b : BitMap) (color : Pixel)
    (hr : Rectangular b) (hw : 1 ≤ b.width) (hh : 6 ≤ b.height) :
    ∃ b', b.draw_line (0, 0) (0, 5) color = some b' ∧
      b'.width = b.width ∧ b'.height = b.height ∧
      (∀ y, y ≤ 5 → b'.getPixel? 0 y = some color) ∧
      (∀ x y, x ≠ 0 ∨ 5 < y → b'.getPixel? x y = b.getPixel? x y) := by
  obtain ⟨hlen, hcols⟩ := hr
  have hx0 : 0 < b.data.length := by omega
  obtain ⟨col0, hcol0⟩ : ∃ col, b.data[0]? = some col :=
    ⟨b.data[0], List.getElem?_eq_some_iff.mpr ⟨hx0, rfl⟩⟩
  have hcol0mem : col0 ∈ b.data := List.mem_iff_getElem?.mpr ⟨0, hcol0⟩
  have hcol0len : 6 ≤ col0.length := by
    rw [hcols col0 hcol0mem]
    exact hh
  have hr0 : rustRound 0 = 0 := by
    rw [rustRound, if_pos le_rfl, Int.floor_eq_zero_iff]
    constructor <;> norm_num
  have hs0 : intToU32sat 0 = 0 := by decide
  have hdl : b.draw_line (0, 0) (0, 5) color
      = (List.range 6).foldlM (fun g y => g.setPixel? 0 y color) b := by
    rw [BitMap.draw_line]
    simp [hr0, hs0]
  rw [hdl, foldlM_setPixel_col 0 (fun _ => color) 6 b col0 hcol0 hcol0len]
  refine ⟨_, rfl, rfl, rfl, ?_, ?_⟩
  · intro y hy
    unfold BitMap.getPixel?
    rw [List.getElem?_set_self hx0]
    simp only [Option.some_bind]
    rw [List.getElem?_append_left (by simp only [List.length_map, List.length_range]; omega),
      List.getElem?_map, List.getElem?_range (by omega)]
    simp
  · intro x y hxy
    unfold BitMap.getPixel?
    rcases Nat.eq_zero_or_pos x with rfl | hxpos
    · have hy6 : 6 ≤ y := by
        rcases hxy with h | h
        · exact absurd rfl h
        · omega
      rw [List.getElem?_set_self hx0, hcol0]
      simp only [Option.some_bind]
      rw [List.getElem?_append_right (by simp only [List.length_map, List.length_range]; omega)]
      simp only [List.length_map, List.length_range]
      rw [List.getElem?_drop]
      congr 1
      omega
    · rw [List.getElem?_set_ne (by omega)]

/-- Witness for C8 on a white 1×6 blank grid with a red line. -/
theorem c8_vertical_line_witness :
    ∃ b', (BitMap.new_blank Pixel.WHITE 1 6).draw_line (0, 0) (0, 5) Pixel.RED = some b' ∧
      b'.width = (BitMap.new_blank Pixel.WHITE 1 6).width ∧
      b'.height = (BitMap.new_blank Pixel.WHITE 1 6).height ∧
      (∀ y, y ≤ 5 → b'.getPixel? 0 y = some Pixel.RED) ∧
      (∀ x y, x ≠ 0 ∨ 5 < y →
        b'.getPixel? x y = (BitMap.new_blank Pixel.WHITE 1 6).getPixel? x y) :=
  c8_vertical_line (BitMap.new_blank Pixel.WHITE 1 6) Pixel.RED (by decide) (by decide)
    (by decide)

/-- Folding `acc ++ f y` over a list appends the concatenation of the images
to the initial accumulator. -/
theorem foldl_append_eq {α β : Type} (f : α → List β) :
    ∀ (l : List α) (init : List β),
      l.foldl (fun acc y => acc ++ f y) init = init ++ (l.map f).flatten
  | [], init => by simp
  | a :: l, init => by
    rw [List.foldl_cons, foldl_append_eq f l (init ++ f a)]
    simp

/-- The sum of a constant map. -/
theorem sum_map_const {α : Type} (l : List α) (c : Nat) :
    (l.map (fun _ => c)).sum = c * l.length := by
  induction l with
  | nil => simp
  | cons a t ih =>
    simp only [List.map_cons, List.sum_cons, ih, List.length_cons]
    ring

/-- The imperative byte accumulation of `save_as_bmp` equals the two headers
followed by the declarative pixel-data section. -/
theorem save_as_bmp_bytes_eq (b : BitMap) :
    b.save_as_bmp_bytes
      = get_header ((14 + 40 + b.width * b.height * 3) % 2 ^ 32)
        ++ get_info_header b.width b.height ++ pixelBytes b := by
  rw [BitMap.save_as_bmp_bytes]
  have hstep : (fun (res : List Nat) (y : Nat) =>
      ((List.range b.width).foldl
        (fun res2 x =>
          res2 ++ [(b.pixelAt x y).blue, (b.pixelAt x y).green, (b.pixelAt x y).red])
        res)
      ++ List.replicate (offset_to (b.width * 3) 4) 0)
      = fun res y => res ++ rowBytes b y := by
    funext res y
    rw [foldl_append_eq, rowBytes, List.append_assoc]
  rw [hstep, foldl_append_eq (rowBytes b), pixelBytes, List.append_assoc]

/-- Each encoded row is `3 * width` pixel bytes plus the padding. -/
theorem rowBytes_length (b : BitMap) (y : Nat) :
    (rowBytes b y).length = 3 * b.width + offset_to (b.width * 3) 4 := by
  rw [rowBytes]
  simp only [List.length_append, List.length_flatten, List.map_map, List.length_replicate]
  have h2 : (List.length ∘ fun x =>
      [(b.pixelAt x y).blue, (b.pixelAt x y).green, (b.pixelAt x y).red])
      = fun _ => (3 : Nat) := by
    funext x
    simp
  rw [h2, sum_map_const, List.length_range]

/-- Total length of the pixel-data section. -/
theorem pixelBytes_length (b : BitMap) :
    (pixelBytes b).length = b.height * (3 * b.width + offset_to (b.width * 3) 4) := by
  rw [pixelBytes]
  simp only [List.length_flatten, List.map_map]
  have h : (List.length ∘ rowBytes b)
      = fun _ => 3 * b.width + offset_to (b.width * 3) 4 := by
    funext y
    exact rowBytes_length b y
  rw [h, sum_map_const, List.length_reverse, List.length_range]
  ring

/-- Decoding the four little-endian bytes of `u32_to_u8` gives the value
modulo `2^32`. -/
theorem leNum_u32_to_u8 (x : Nat) : leNum (u32_to_u8 x) = x % 2 ^ 32 := by
  rw [u32_to_u8, leNum]
  simp only [List.foldr_cons, List.foldr_nil]
  omega

/-- C3: the encoder emits the headers followed by the pixel rows bottom to
top, each row's pixels left to right as blue, green, red bytes with zero
padding to a 4-byte boundary; concretely, the 1×1 red grid encodes to
exactly 58 bytes starting with `'B', 'M'` and ending with the pixel triple
`0, 0, 255` plus one zero pad byte. -/
theorem c3_pixel_data_layout (b : BitMap) :
    (b.save_as_bmp_bytes
      = get_header ((14 + 40 + b.width * b.height * 3) % 2 ^ 32)
        ++ get_info_header b.width b.height ++ pixelBytes b) ∧
    (BitMap.new_blank Pixel.RED 1 1).save_as_bmp_bytes.length = 58 ∧
    (BitMap.new_blank Pixel.RED 1 1).save_as_bmp_bytes.take 2 = [66, 77] ∧
    (BitMap.new_blank Pixel.RED 1 1).save_as_bmp_bytes.drop 54 = [0, 0, 255, 0] :=
  ⟨save_as_bmp_bytes_eq b, by decide, by decide, by decide⟩

/-- C4: the 32-bit little-endian file-size field equals `14 + 40 + W*H*3`
(when that value fits in 32 bits), the reserved field is `0`, the data
offset field is `54`, and yet the emitted byte count also includes the row
padding bytes the size field ignores. -/
theorem c4_file_size_field (b : BitMap)
    (hsize : 14 + 40 + b.width * b.height * 3 < 2 ^ 32) :
    leNum ((b.save_as_bmp_bytes.drop 2).take 4) = 14 + 40 + b.width * b.height * 3 ∧
    leNum ((b.save_as_bmp_bytes.drop 6).take 4) = 0 ∧
    leNum ((b.save_as_bmp_bytes.drop 10).take 4) = 54 ∧
    b.save_as_bmp_bytes.length
      = 54 + b.height * (3 * b.width + offset_to (b.width * 3) 4) := by
  have hsave := save_as_bmp_bytes_eq b
  refine ⟨?_, ?_, ?_, ?_⟩
  · have hext : (b.save_as_bmp_bytes.drop 2).take 4
        = u32_to_u8 ((14 + 40 + b.width * b.height * 3) % 2 ^ 32) := by
      rw [hsave]
      rfl
    rw [hext, leNum_u32_to_u8]
    omega
  · have hext : (b.save_as_bmp_bytes.drop 6).take 4 = u32_to_u8 0 := by
      rw [hsave]
      rfl
    rw [hext, leNum_u32_to_u8]
    norm_num
  · have hext : (b.save_as_bmp_bytes.drop 10).take 4 = u32_to_u8 54 := by
      rw [hsave]
      rfl
    rw [hext, leNum_u32_to_u8]
    norm_num
  · rw [hsave]
    simp only [List.length_append, pixelBytes_length]
    have h14 : (get_header ((14 + 40 + b.width * b.height * 3) % 2 ^ 32)).length = 14 := rfl
    have h40 : (get_info_header b.width b.height).length = 40 := rfl
    rw [h14, h40]

/-- Witness for C4 on the 1×1 red grid. -/
theorem c4_file_size_field_witness :
    leNum (((BitMap.new_blank Pixel.RED 1 1).save_as_bmp_bytes.drop 2).take 4)
      = 14 + 40 + 1 * 1 * 3 ∧
    leNum (((BitMap.new_blank Pixel.RED 1 1).save_as_bmp_bytes.drop 6).take 4) = 0 ∧
    leNum (((BitMap.new_blank Pixel.RED 1 1).save_as_bmp_bytes.drop 10).take 4) = 54 ∧
    (BitMap.new_blank Pixel.RED 1 1).save_as_bmp_bytes.length
      = 54 + 1 * (3 * 1 + offset_to (1 * 3) 4) :=
  c4_file_size_field (BitMap.new_blank Pixel.RED 1 1) (by decide)

/-- Round-half-away-from-zero lands within half a unit of its argument. -/
theorem rustRound_dist (q : ℚ) : |(rustRound q : ℚ) - q| ≤ 1 / 2 := by
  rw [rustRound]
  split
  · rw [abs_le]
    constructor
    · have := Int.lt_floor_add_one (q + 1 / 2)
      push_cast at this ⊢
      linarith
    · have := Int.floor_le (q + 1 / 2)
      push_cast at this ⊢
      linarith
  · rw [abs_le]
    constructor
    · have := Int.le_ceil (q - 1 / 2)
      push_cast at this ⊢
      linarith
    · have := Int.ceil_lt_add_one (q - 1 / 2)
      push_cast at this ⊢
      linarith

/-- C5 counterexample: rendering the plot square `(0,0)-(1,1)` with
`pixel_size = 1` (so the centre rounding is exact), the complex point
generated for pixel row `y = 0` has imaginary part `-1`, not `y2 = 1` — off
by far more than the half-pixel rounding slack — and row `1`'s imaginary
part is strictly larger, not smaller. -/
theorem c5_counterexample :
    (genPoint (mandelCenter 0 1 1) 1 0 0).im = -1 ∧
    (genPoint (mandelCenter 0 1 1) 1 0 0).im ≠ 1 ∧
    1 / 2 < |(genPoint (mandelCenter 0 1 1) 1 0 0).im - 1| ∧
    (genPoint (mandelCenter 0 1 1) 1 0 0).im < (genPoint (mandelCenter 0 1 1) 1 0 1).im := by
  have hr1 : rustRound ((1 : ℚ) / 1) = 1 := by
    rw [rustRound, if_pos (by norm_num)]
    rw [show ((1 : ℚ) / 1 + 1 / 2) = 3 / 2 by norm_num]
    rw [Int.floor_eq_iff]
    constructor <;> norm_num
  have hr0 : rustRound (-(0 : ℚ) / 1) = 0 := by
    rw [rustRound, if_pos (by norm_num)]
    rw [show (-(0 : ℚ) / 1 + 1 / 2) = 1 / 2 by norm_num]
    rw [Int.floor_eq_iff]
    constructor <;> norm_num
  have hcent : mandelCenter 0 1 1 = (0, 1) := by
    rw [mandelCenter, hr0, hr1]
    decide
  rw [hcent]
  refine ⟨?_, ?_, ?_, ?_⟩ <;> norm_num [genPoint, Complex.smul]

/-- C5 (amended): the generator does not invert the y-axis.  The imaginary
part of pixel `(x, y)`'s point is `(y - cent_y) * pixel_size`; at row `0`
it lies within half a pixel of `-y2` (the claim said `y2`), and it strictly
increases (the claim said decreases) as the row index grows. -/
theorem c5_amended_row_zero (x1 y2 pixel_size : ℚ) (hps : 0 < pixel_size)
    (hrange : |rustRound (y2 / pixel_size)| ≤ 2 ^ 63 - 1) :
    (∀ x y : Nat, (genPoint (mandelCenter x1 y2 pixel_size) pixel_size x y).im
        = ((y : ℚ) - ((mandelCenter x1 y2 pixel_size).2 : ℚ)) * pixel_size) ∧
    (∀ x : Nat,
      |(genPoint (mandelCenter x1 y2 pixel_size) pixel_size x 0).im - (-y2)|
        ≤ pixel_size / 2) ∧
    (∀ (x y y' : Nat), y < y' →
      (genPoint (mandelCenter x1 y2 pixel_size) pixel_size x y).im
        < (genPoint (mandelCenter x1 y2 pixel_size) pixel_size x y').im) := by
  have hc2 : (mandelCenter x1 y2 pixel_size).2 = rustRound (y2 / pixel_size) := by
    show intToI64sat (rustRound (y2 / pixel_size)) = rustRound (y2 / pixel_size)
    rw [intToI64sat]
    rw [abs_le] at hrange
    omega
  refine ⟨fun x y => rfl, ?_, ?_⟩
  · intro x
    have hd := rustRound_dist (y2 / pixel_size)
    have him : (genPoint (mandelCenter x1 y2 pixel_size) pixel_size x 0).im
        = ((0 : ℚ) - (rustRound (y2 / pixel_size) : ℚ)) * pixel_size := by
      rw [show (genPoint (mandelCenter x1 y2 pixel_size) pixel_size x 0).im
          = (((0 : Nat) : ℚ) - ((mandelCenter x1 y2 pixel_size).2 : ℚ)) * pixel_size
          from rfl, hc2]
      norm_num
    rw [him]
    have hps' : pixel_size ≠ 0 := ne_of_gt hps
    have heq : ∀ r : ℚ, ((0 : ℚ) - r) * pixel_size - (-y2)
        = (y2 / pixel_size - r) * pixel_size := by
      intro r
      field_simp
      ring
    rw [heq, abs_mul, abs_of_pos hps, abs_sub_comm]
    have hmul := mul_le_mul_of_nonneg_right hd (le_of_lt hps)
    linarith
  · intro x y y' hyy
    show ((y : ℚ) - ((mandelCenter x1 y2 pixel_size).2 : ℚ)) * pixel_size
      < ((y' : ℚ) - ((mandelCenter x1 y2 pixel_size).2 : ℚ)) * pixel_size
    have hcast : (y : ℚ) < (y' : ℚ) := by exact_mod_cast hyy
    exact mul_lt_mul_of_pos_right (sub_lt_sub_right hcast _) hps

/-- Witness for C5's amended statement at `x1 = 0`, `y2 = 1`,
`pixel_size = 1`. -/
theorem c5_amended_row_zero_witness :
    (∀ x y : Nat, (genPoint (mandelCenter 0 1 1) 1 x y).im
        = ((y : ℚ) - ((mandelCenter 0 1 1).2 : ℚ)) * 1) ∧
    (∀ x : Nat, |(genPoint (mandelCenter 0 1 1) 1 x 0).im - (-1)| ≤ 1 / 2) ∧
    (∀ (x y y' : Nat), y < y' →
      (genPoint (mandelCenter 0 1 1) 1 x y).im < (genPoint (mandelCenter 0 1 1) 1 x y').im) :=
  c5_amended_row_zero 0 1 1 (by norm_num)
    (by
      rw [show ((1 : ℚ) / 1) = 1 by norm_num]
      rw [show rustRound (1 : ℚ) = 1 by
        rw [rustRound, if_pos (by norm_num)]
        rw [show ((1 : ℚ) + 1 / 2) = 3 / 2 by norm_num]
        rw [Int.floor_eq_iff]
        constructor <;> norm_num]
      decide)

end Mandelbrot
